import Mathlib

/-!
Shallow embedding of the options-fetching coordinator implemented in
`src/dist/index.es.js` (the `useSafeOptionsFetcher` hook), together with
proofs about its request-coordination behaviour.

Modelling conventions:
* JavaScript strings are Lean `String`s; all string operations
  (`toLowerCase`, `includes`, `startsWith`, `localeCompare`) are modelled
  structurally on the underlying character lists so that every definition
  evaluates by kernel reduction.  `localeCompare` is modelled as code-point
  lexicographic comparison returning -1/0/1 (a stand-in for the default
  locale collation; only the sign is ever used by the code).
* The hook's React state cells (`options`, `filteredOptions`, `isLoading`)
  and refs (`searchGuard`, `requestCounter`) are gathered into one explicit
  state record `CState`; the single-threaded cooperative scheduling of the
  JS runtime is modelled by splitting the async function
  `getOptionsFromAPI` at its unique `await` point into a start phase
  (`getOptionsFromAPI`, returning the state plus an optional pending
  request when `APIService` is actually invoked) and a resume phase
  (`resolveAPI` / `settleAPI`, consuming the fetch outcome).
* A rejected fetch is an `Except.error`: the coordinator has no catch
  handler, so no coordinator code runs after a rejection.
-/

/-- JS values that can appear as fields of an option record: the code only
distinguishes strings (which participate in keyword matching) from
everything else (`typeof value === 'string'`). -/
inductive JSVal where
  | str (s : String)
  | num (n : Int)
  | undef
deriving DecidableEq, Repr

/-- An option record.  `value` is the dedup key (line 39), `label` drives the
sort (line 4) and may be absent (malformed option), `custom` holds the values
of the record stored under the configured `customDataName` field
(`ele[customDataName]`, lines 41 and 66); `none` models an absent field,
in which case `hasKeyword` receives its default `{}`. -/
structure Opt where
  value : JSVal
  label : Option String
  custom : Option (List JSVal) := none
deriving DecidableEq, Repr

/-- Character-list model of JS `String.prototype.includes`: does `needle`
occur contiguously inside the second list? -/
def matchesAt : List Char → List Char → Bool
  | [], _ => true
  | _ :: _, [] => false
  | a :: as, b :: bs => a == b && matchesAt as bs

/-- Helper for `matchesAt`: scan every suffix. -/
def containsChars (needle : List Char) : List Char → Bool
  | [] => needle.isEmpty
  | b :: bs => matchesAt needle (b :: bs) || containsChars needle bs

/-- Model of JS `toLowerCase` (per character, as in `Char.toLower`). -/
def lowerChars (l : List Char) : List Char := l.map Char.toLower

/-- Model of `value.toLowerCase().includes(keyword.toLowerCase())`. -/
def includesCI (hay needle : String) : Bool :=
  containsChars (lowerChars needle.data) (lowerChars hay.data)

/-- Model of JS `keyword.startsWith(prev)` (line 30 / line 77). -/
def leadsChars : List Char → List Char → Bool
  | [], _ => true
  | _ :: _, [] => false
  | a :: as, b :: bs => a == b && leadsChars as bs

/-- Model of `kw.startsWith prev`. -/
def jsStartsWith (kw prev : String) : Bool := leadsChars prev.data kw.data

/-- Source line 5:
`const hasKeyword = (obj = {}, keyword = "") => keyword ?
Object.values(obj).some(value => typeof value === 'string' &&
value?.toLowerCase().includes(keyword?.toLowerCase())) : obj;`
The argument is the list of values of the inspected object.  With an empty
(falsy) keyword the JS function returns the object itself, which is an
object and hence truthy, so the boolean model returns `true`. -/
def hasKeyword (vals : List JSVal) (keyword : String) : Bool :=
  if keyword = "" then true
  else vals.any fun v =>
    match v with
    | .str s => includesCI s keyword
    | _ => false

/-- Field selection of lines 41-44 / 66-69: when `customDataName` is
configured the inspected object is `ele[customDataName]` (absent field falls
back to `hasKeyword`'s default `{}`, whose value list is empty); otherwise it
is `{ value: ele.value, label: ele.label }` (an absent label contributes the
non-string `undefined`). -/
def optFieldVals (customDataName : Bool) (ele : Opt) : List JSVal :=
  if customDataName then ele.custom.getD []
  else [ele.value, match ele.label with | some s => JSVal.str s | none => JSVal.undef]

/-- Code-point comparison of character lists, returning -1 / 0 / 1; the model
of `localeCompare` between two present strings. -/
def cmpChars : List Char → List Char → Int
  | [], [] => 0
  | [], _ :: _ => -1
  | _ :: _, [] => 1
  | a :: as, b :: bs =>
    if a.toNat < b.toNat then -1 else if b.toNat < a.toNat then 1 else cmpChars as bs

/-- Model of `la.localeCompare(lb)` for two present strings. -/
def strCompare (a b : String) : Int := cmpChars a.data b.data

/-- JS `ToString` of the right-hand argument of `localeCompare`: an absent
label (`b.label?.toString()` evaluating to `undefined`) is coerced to the
string `"undefined"` by `String.prototype.localeCompare`. -/
def labelKey : Option String → String
  | some s => s
  | none => "undefined"

/-- Source line 4 comparator:
`(a, b) => a.label?.toString().localeCompare(b.label?.toString())`.
When `a.label` is absent the whole optional chain evaluates to `undefined`;
`Array.prototype.sort` coerces a non-numeric comparator result to `+0`, i.e.
the pair is treated as equal. -/
def jsCompare (a b : Opt) : Int :=
  match a.label with
  | none => 0
  | some la => strCompare la (labelKey b.label)

/-- Insertion of one element into an already sorted list, placing it before
the first element it compares `≤ 0` against (the stable order). -/
def insertSorted (x : Opt) : List Opt → List Opt
  | [] => [x]
  | y :: ys => if jsCompare x y ≤ 0 then x :: y :: ys else y :: insertSorted x ys

/-- Source line 4: `const sortArray = arr => arr.sort((a, b) => ...)`,
modelled as a stable sort by the line-4 comparator (JS `Array.prototype.sort`
is stable, and a stable sort under a consistent comparator is unique). -/
def sortArray (l : List Opt) : List Opt := l.foldr insertSorted []

/-- One `map.set(k, v)` step of the JS `Map` built on line 39: an existing
key keeps its position but its value is overwritten; a new key is appended. -/
def mapSet (m : List (JSVal × Opt)) (k : JSVal) (v : Opt) : List (JSVal × Opt) :=
  if m.any fun p => decide (p.1 = k) then
    m.map fun p => if p.1 = k then (k, v) else p
  else m ++ [(k, v)]

/-- The JS `Map` produced by `new Map(l.map(item => [item.value, item]))`:
entries are inserted left to right. -/
def buildValueMap (m : List (JSVal × Opt)) : List Opt → List (JSVal × Opt)
  | [] => m
  | item :: rest => buildValueMap (mapSet m item.value item) rest

/-- Source line 39:
`Array.from(new Map(merged.map(item => [item.value, item])).values())`. -/
def dedupByValue (l : List Opt) : List Opt :=
  (buildValueMap [] l).map Prod.snd

/-- Lookup in the association-list model of the JS `Map`. -/
def mapGet (m : List (JSVal × Opt)) (k : JSVal) : Option Opt :=
  (m.find? fun p => decide (p.1 = k)).map Prod.snd

/-- The `searchGuard` ref (line 18): initially `{}` (both fields absent);
armed as `{ prevKeyword, stop: true }` on line 55; cleared back to `{}` on
lines 47 and 75. -/
structure SearchGuard where
  prevKeyword : Option String
  stop : Bool
deriving DecidableEq, Repr

/-- The cleared guard `{}`: absent fields read as `undefined` (falsy). -/
def SearchGuard.empty : SearchGuard := ⟨none, false⟩

/-- Guard condition of lines 30 and 77:
`!searchGuard.current?.stop || !keyword.startsWith(searchGuard.current?.prevKeyword)`.
An absent `prevKeyword` would be coerced to the string `"undefined"` by
`startsWith` (that combination is unreachable: `stop` and `prevKeyword` are
always set together). -/
def guardAllows (g : SearchGuard) (kw : String) : Bool :=
  !g.stop || !(jsStartsWith kw (g.prevKeyword.getD "undefined"))

/-- Construction-time configuration of the hook (line 14).  `customKey` and
`customPayload` only shape the request payload and are irrelevant to the
state evolution, so they are reduced to the flags that the control flow
reads: whether `APIService` is defined and whether `customDataName` is
defined. -/
structure Config where
  hasAPIService : Bool
  customDataName : Bool
deriving DecidableEq, Repr

/-- A remote request that has actually been started: the epoch captured on
line 22 (`const currentRequest = ++requestCounter.current`) and the keyword
the request was issued with. -/
structure Pending where
  epoch : Nat
  keyword : String
deriving DecidableEq, Repr

/-- The coordinator state: the three React state cells and the two refs. -/
structure CState where
  options : List Opt
  filteredOptions : List Opt
  isLoading : Bool
  searchGuard : SearchGuard
  requestCounter : Nat
deriving DecidableEq, Repr

/-- Initial state (lines 15-19). -/
def initState : CState := ⟨[], [], false, SearchGuard.empty, 0⟩

/-- The filtering predicate applied on lines 41-44 and 66-69. -/
def matchPred (cfg : Config) (kw : String) (ele : Opt) : Bool :=
  hasKeyword (optFieldVals cfg.customDataName ele) kw

/-- Start phase of `getOptionsFromAPI` (lines 20-34): set the loading flag,
increment the request counter, and either actually invoke `APIService`
(returning the pending request that is now awaiting its response) or — when
`APIService` is undefined or the guard blocks the keyword — fall through
synchronously to the final epoch check (line 61), which trivially succeeds
and clears the loading flag. -/
def getOptionsFromAPI (cfg : Config) (st : CState) (kw : String) : CState × Option Pending :=
  if cfg.hasAPIService && guardAllows st.searchGuard kw then
    ({ st with isLoading := true, requestCounter := st.requestCounter + 1 },
      some ⟨st.requestCounter + 1, kw⟩)
  else
    ({ st with isLoading := false, requestCounter := st.requestCounter + 1 }, none)

/-- Resume phase of `getOptionsFromAPI` after `await APIService(...)`
resolves with `res` (lines 35-63).  A stale response (line 35) mutates
nothing, and also fails the final epoch check, leaving the loading flag
untouched.  Otherwise: a non-empty `res` is merged, deduplicated by `value`,
sorted, filtered by the keyword (lines 37-47, clearing the guard); an empty
`res` clears `filteredOptions` and arms the guard (lines 48-59); in both
cases the final epoch check (line 61) still succeeds and clears the loading
flag. -/
def resolveAPI (cfg : Config) (st : CState) (p : Pending) (res : List Opt) : CState :=
  if p.epoch = st.requestCounter then
    if 0 < res.length then
      { st with
        options := sortArray (dedupByValue (st.options ++ res))
        filteredOptions :=
          (sortArray (dedupByValue (st.options ++ res))).filter (matchPred cfg p.keyword)
        searchGuard := SearchGuard.empty
        isLoading := false }
    else
      { st with
        filteredOptions := []
        searchGuard := ⟨some p.keyword, true⟩
        isLoading := false }
  else st

/-- Resume phase including the failure case: when the awaited `APIService`
call rejects, there is no catch handler in the coordinator, so none of the
code after the `await` runs and the rejection propagates. -/
def settleAPI (cfg : Config) (st : CState) (p : Pending) :
    Except Unit (List Opt) → Except Unit CState
  | .ok res => .ok (resolveAPI cfg st p res)
  | .error e => .error e

/-- Source lines 65-81, `filterOptionsLocally`: filter the cached options by
the keyword; on a hit, publish the matches, clear the loading flag and the
guard; on a miss, fall through to `getOptionsFromAPI` unless the guard
blocks the keyword, in which case nothing further happens. -/
def filterOptionsLocally (cfg : Config) (st : CState) (kw : String) : CState × Option Pending :=
  if 0 < (st.options.filter (matchPred cfg kw)).length then
    ({ st with
        filteredOptions := st.options.filter (matchPred cfg kw)
        isLoading := false
        searchGuard := SearchGuard.empty }, none)
  else if guardAllows st.searchGuard kw then
    getOptionsFromAPI cfg st kw
  else
    (st, none)

/-- Source lines 82-89, `getOptions`: local filtering when any options are
cached, otherwise a remote fetch. -/
def getOptions (cfg : Config) (st : CState) (kw : String) : CState × Option Pending :=
  if 0 < st.options.length then filterOptionsLocally cfg st kw
  else getOptionsFromAPI cfg st kw

/-- Events of the single-threaded cooperative schedule: a `lookup` is a call
of `getOptions`; `settleOk p res` is the resumption of the in-flight request
`p` with response `res`; `settleErr p` is its resumption with a rejection
(no coordinator code runs). -/
inductive Event where
  | lookup (kw : String)
  | settleOk (p : Pending) (res : List Opt)
  | settleErr (p : Pending)
deriving DecidableEq, Repr

/-- State effect of one scheduled event. -/
def stepEv (cfg : Config) (st : CState) : Event → CState
  | .lookup kw => (getOptions cfg st kw).1
  | .settleOk p res => resolveAPI cfg st p res
  | .settleErr _ => st

/-- Run a schedule of events from a state. -/
def run (cfg : Config) (st : CState) : List Event → CState
  | [] => st
  | e :: rest => run cfg (stepEv cfg st e) rest

/-! ### Comparator lemmas -/

theorem cmpChars_total (a b : List Char) : cmpChars a b ≤ 0 ∨ cmpChars b a ≤ 0 := by
  induction a generalizing b with
  | nil => cases b <;> simp [cmpChars]
  | cons x xs ih =>
    cases b with
    | nil => right; simp [cmpChars]
    | cons y ys =>
      rcases Nat.lt_trichotomy x.toNat y.toNat with h | h | h
      · left; simp [cmpChars, h]
      · have h2 : ¬ x.toNat < y.toNat := by omega
        have h3 : ¬ y.toNat < x.toNat := by omega
        simpa [cmpChars, h2, h3] using ih ys
      · right
        simp [cmpChars, h]

theorem cmpChars_trans {a b c : List Char}
    (hab : cmpChars a b ≤ 0) (hbc : cmpChars b c ≤ 0) : cmpChars a c ≤ 0 := by
  induction a generalizing b c with
  | nil => cases c <;> simp [cmpChars]
  | cons x xs ih =>
    cases b with
    | nil => simp [cmpChars] at hab
    | cons y ys =>
      cases c with
      | nil => simp [cmpChars] at hbc
      | cons z zs =>
        by_cases h1 : x.toNat < y.toNat
        · by_cases h2 : y.toNat < z.toNat
          · have h3 : x.toNat < z.toNat := Nat.lt_trans h1 h2
            simp [cmpChars, h3]
          · by_cases h3 : z.toNat < y.toNat
            · simp only [cmpChars] at hbc
              rw [if_neg h2, if_pos h3] at hbc
              omega
            · have h4 : x.toNat < z.toNat := by omega
              simp [cmpChars, h4]
        · by_cases h4 : y.toNat < x.toNat
          · simp only [cmpChars] at hab
            rw [if_neg h1, if_pos h4] at hab
            omega
          · simp only [cmpChars] at hab
            rw [if_neg h1, if_neg h4] at hab
            by_cases h2 : y.toNat < z.toNat
            · have h5 : x.toNat < z.toNat := by omega
              simp [cmpChars, h5]
            · by_cases h3 : z.toNat < y.toNat
              · simp only [cmpChars] at hbc
                rw [if_neg h2, if_pos h3] at hbc
                omega
              · simp only [cmpChars] at hbc
                rw [if_neg h2, if_neg h3] at hbc
                have h5 : ¬ x.toNat < z.toNat := by omega
                have h6 : ¬ z.toNat < x.toNat := by omega
                simp only [cmpChars]
                rw [if_neg h5, if_neg h6]
                exact ih hab hbc

theorem jsCompare_total (a b : Opt) : jsCompare a b ≤ 0 ∨ jsCompare b a ≤ 0 := by
  cases ha : a.label with
  | none => left; simp [jsCompare, ha]
  | some la =>
    cases hb : b.label with
    | none => right; simp [jsCompare, hb]
    | some lb =>
      simpa [jsCompare, ha, hb, labelKey, strCompare] using cmpChars_total la.data lb.data

theorem jsCompare_trans {a b c : Opt} (hb : b.label.isSome = true)
    (hab : jsCompare a b ≤ 0) (hbc : jsCompare b c ≤ 0) : jsCompare a c ≤ 0 := by
  cases ha : a.label with
  | none => simp [jsCompare, ha]
  | some la =>
    obtain ⟨lb, hlb⟩ := Option.isSome_iff_exists.mp hb
    rw [jsCompare, ha, hlb] at hab
    rw [jsCompare, hlb] at hbc
    rw [jsCompare, ha]
    simp only [labelKey] at hab
    exact cmpChars_trans hab hbc

/-! ### Sorting lemmas -/

theorem insertSorted_perm (x : Opt) (l : List Opt) : (insertSorted x l).Perm (x :: l) := by
  induction l with
  | nil => simp [insertSorted]
  | cons y ys ih =>
    simp only [insertSorted]
    split
    · exact List.Perm.refl _
    · exact (ih.cons y).trans (List.Perm.swap x y ys)

theorem mem_insertSorted {x z : Opt} {l : List Opt} (h : z ∈ insertSorted x l) :
    z = x ∨ z ∈ l := by
  have := (insertSorted_perm x l).mem_iff.mp h
  simpa using this

theorem insertSorted_sorted {x : Opt} {l : List Opt}
    (hx : x.label.isSome = true) (hl : ∀ y ∈ l, y.label.isSome = true)
    (hs : l.Pairwise fun a b => jsCompare a b ≤ 0) :
    (insertSorted x l).Pairwise fun a b => jsCompare a b ≤ 0 := by
  induction l with
  | nil => simp [insertSorted]
  | cons y ys ih =>
    obtain ⟨hy, hys⟩ := List.pairwise_cons.mp hs
    simp only [insertSorted]
    split
    · rename_i hxy
      refine List.pairwise_cons.mpr ⟨?_, hs⟩
      intro z hz
      rcases List.mem_cons.mp hz with rfl | hz
      · exact hxy
      · exact jsCompare_trans (hl y (List.mem_cons_self y ys)) hxy (hy z hz)
    · rename_i hxy
      have hyx : jsCompare y x ≤ 0 := (jsCompare_total x y).resolve_left hxy
      refine List.pairwise_cons.mpr ⟨?_, ih (fun z hz => hl z (List.mem_cons_of_mem y hz)) hys⟩
      intro z hz
      rcases mem_insertSorted hz with rfl | hz
      · exact hyx
      · exact hy z hz

theorem sortArray_perm (l : List Opt) : (sortArray l).Perm l := by
  induction l with
  | nil => simp [sortArray]
  | cons x xs ih =>
    have hfold : sortArray (x :: xs) = insertSorted x (sortArray xs) := rfl
    rw [hfold]
    exact (insertSorted_perm x (sortArray xs)).trans (ih.cons x)

theorem sortArray_sorted {l : List Opt} (hl : ∀ o ∈ l, o.label.isSome = true) :
    (sortArray l).Pairwise fun a b => jsCompare a b ≤ 0 := by
  induction l with
  | nil => simp [sortArray]
  | cons x xs ih =>
    have hfold : sortArray (x :: xs) = insertSorted x (sortArray xs) := rfl
    rw [hfold]
    exact insertSorted_sorted (hl x (List.mem_cons_self x xs))
      (fun y hy => hl y (List.mem_cons_of_mem x ((sortArray_perm xs).mem_iff.mp hy)))
      (ih fun o ho => hl o (List.mem_cons_of_mem x ho))

/-! ### Dedup (JS Map) lemmas -/

theorem getLast?_or {α : Type} (x : α) (t : List α) :
    (x :: t).getLast? = t.getLast?.or (some x) := by
  induction t generalizing x with
  | nil => simp
  | cons y t ih =>
    rw [List.getLast?_cons_cons, ih y]
    cases hgl : t.getLast? <;> simp [Option.or]

theorem find?_map_replace (k k2 : JSVal) (x : Opt) (m : List (JSVal × Opt)) :
    ((m.map fun p => if p.1 = k then (k, x) else p).find? fun p => decide (p.1 = k2))
      = if k2 = k then (m.find? fun p => decide (p.1 = k)).map (fun _ => (k, x))
        else m.find? fun p => decide (p.1 = k2) := by
  induction m with
  | nil => simp
  | cons p m ih =>
    rw [List.map_cons]
    by_cases hp : p.1 = k
    · by_cases hk : k2 = k
      · subst hk
        simp [List.find?_cons, hp]
      · simp [List.find?_cons, hp, hk, Ne.symm hk, ih]
    · by_cases hk : k2 = k
      · subst hk
        simp [List.find?_cons, hp, ih]
      · by_cases hq : p.1 = k2
        · simp [List.find?_cons, hp, hk, hq]
        · simp [List.find?_cons, hp, hk, hq, ih]

theorem mapGet_mapSet (m : List (JSVal × Opt)) (k k2 : JSVal) (x : Opt) :
    mapGet (mapSet m k x) k2 = if k2 = k then some x else mapGet m k2 := by
  unfold mapGet mapSet
  by_cases hany : (m.any fun p => decide (p.1 = k)) = true
  · rw [if_pos hany, find?_map_replace]
    by_cases hk : k2 = k
    · rw [if_pos hk, if_pos hk]
      obtain ⟨q, hq, hq2⟩ := List.any_eq_true.mp hany
      cases hfind : m.find? fun p => decide (p.1 = k) with
      | none => exact absurd hq2 (by simpa using List.find?_eq_none.mp hfind q hq)
      | some r => simp
    · rw [if_neg hk, if_neg hk]
  · have hanyf : (m.any fun p => decide (p.1 = k)) = false := by
      cases h : m.any fun p => decide (p.1 = k)
      · rfl
      · exact absurd h hany
    have hnone : (m.find? fun p => decide (p.1 = k)) = none :=
      List.find?_eq_none.mpr (List.any_eq_false.mp hanyf)
    rw [if_neg hany, List.find?_append]
    by_cases hk : k2 = k
    · subst hk
      simp [List.find?_cons, hnone, Option.none_or]
    · simp [List.find?_cons, hk, Ne.symm hk, Option.or_none]

theorem mapGet_buildValueMap (l : List Opt) (m : List (JSVal × Opt)) (k : JSVal) :
    mapGet (buildValueMap m l) k
      = ((l.filter fun o => decide (o.value = k)).getLast?).or (mapGet m k) := by
  induction l generalizing m with
  | nil => simp [buildValueMap]
  | cons item rest ih =>
    simp only [buildValueMap]
    rw [ih, mapGet_mapSet]
    by_cases hv : item.value = k
    · rw [List.filter_cons_of_pos (by simp [hv]), getLast?_or, if_pos hv.symm]
      cases hgl : (rest.filter fun o => decide (o.value = k)).getLast? <;> simp [Option.or]
    · rw [List.filter_cons_of_neg (by simp [hv]), if_neg (fun h => hv h.symm)]

/-- Well-formedness of the association-list model: each entry's stored option
has the entry's key as its `value`. -/
def mapWF (m : List (JSVal × Opt)) : Prop := ∀ p ∈ m, p.2.value = p.1

theorem mapWF_mapSet {m : List (JSVal × Opt)} {k : JSVal} {x : Opt}
    (hm : mapWF m) (hx : x.value = k) : mapWF (mapSet m k x) := by
  intro p hp
  unfold mapSet at hp
  split at hp
  · obtain ⟨q, hq, hqe⟩ := List.mem_map.mp hp
    by_cases h2 : q.1 = k
    · rw [if_pos h2] at hqe
      rw [← hqe]
      exact hx
    · rw [if_neg h2] at hqe
      rw [← hqe]
      exact hm q hq
  · rcases List.mem_append.mp hp with h | h
    · exact hm p h
    · have : p = (k, x) := by simpa using h
      rw [this]
      exact hx

theorem mapSet_keys_nodup {m : List (JSVal × Opt)} {k : JSVal} {x : Opt}
    (h : (m.map Prod.fst).Nodup) : ((mapSet m k x).map Prod.fst).Nodup := by
  unfold mapSet
  split
  · have hkeys : ((m.map fun p => if p.1 = k then (k, x) else p).map Prod.fst)
        = m.map Prod.fst := by
      rw [List.map_map]
      apply List.map_congr_left
      intro p _
      by_cases h2 : p.1 = k <;> simp [h2]
    rw [hkeys]
    exact h
  · rename_i hany
    have hnotin : ∀ p ∈ m, ¬ (p.1 = k) := by
      intro p hp
      have := List.any_eq_false.mp (by
        cases hv : m.any fun p => decide (p.1 = k)
        · rfl
        · exact absurd hv hany) p hp
      simpa using this
    rw [List.map_append]
    refine List.nodup_append.mpr ⟨h, by simp, ?_⟩
    intro a ha hb
    obtain ⟨p, hp, hpe⟩ := List.mem_map.mp ha
    have hak : a = k := by simpa using hb
    exact hnotin p hp (by rw [hpe, hak])

theorem buildValueMap_wf {l : List Opt} {m : List (JSVal × Opt)}
    (hm : mapWF m) : mapWF (buildValueMap m l) := by
  induction l generalizing m with
  | nil => exact hm
  | cons item rest ih => exact ih (mapWF_mapSet hm rfl)

theorem buildValueMap_keys_nodup {l : List Opt} {m : List (JSVal × Opt)}
    (hm : (m.map Prod.fst).Nodup) : ((buildValueMap m l).map Prod.fst).Nodup := by
  induction l generalizing m with
  | nil => exact hm
  | cons item rest ih => exact ih (mapSet_keys_nodup hm)

theorem mem_mapSet {m : List (JSVal × Opt)} {k : JSVal} {x : Opt} {q : JSVal × Opt}
    (hq : q ∈ mapSet m k x) : q ∈ m ∨ q = (k, x) := by
  unfold mapSet at hq
  split at hq
  · obtain ⟨p, hp, hpe⟩ := List.mem_map.mp hq
    by_cases h2 : p.1 = k
    · rw [if_pos h2] at hpe
      right
      exact hpe.symm
    · rw [if_neg h2] at hpe
      left
      rw [← hpe]
      exact hp
  · rcases List.mem_append.mp hq with h | h
    · left; exact h
    · right; simpa using h

theorem mem_buildValueMap {l : List Opt} {m : List (JSVal × Opt)} {q : JSVal × Opt}
    (hq : q ∈ buildValueMap m l) : q ∈ m ∨ q.2 ∈ l := by
  induction l generalizing m with
  | nil => left; simpa [buildValueMap] using hq
  | cons item rest ih =>
    simp only [buildValueMap] at hq
    rcases ih hq with h | h
    · rcases mem_mapSet h with h2 | h2
      · left; exact h2
      · right
        rw [h2]
        exact List.mem_cons_self item rest
    · right
      exact List.mem_cons_of_mem item h

theorem map_snd_filter_eq {m : List (JSVal × Opt)} (v : JSVal)
    (hwf : mapWF m) (hnd : (m.map Prod.fst).Nodup) :
    (m.map Prod.snd).filter (fun o => decide (o.value = v)) = (mapGet m v).toList := by
  induction m with
  | nil => simp [mapGet]
  | cons q m ih =>
    obtain ⟨k0, x0⟩ := q
    have hx0 : x0.value = k0 := hwf (k0, x0) (List.mem_cons_self _ m)
    have hwf2 : mapWF m := fun p hp => hwf p (List.mem_cons_of_mem _ hp)
    have hnd2 : (m.map Prod.fst).Nodup := (List.nodup_cons.mp (by simpa using hnd)).2
    have hk0 : k0 ∉ m.map Prod.fst := (List.nodup_cons.mp (by simpa using hnd)).1
    by_cases hv : v = k0
    · subst hv
      have hrest : (m.map Prod.snd).filter (fun o => decide (o.value = v)) = [] := by
        apply List.filter_eq_nil_iff.mpr
        intro o ho
        obtain ⟨p, hp, hpe⟩ := List.mem_map.mp ho
        have : o.value = p.1 := by rw [← hpe]; exact hwf2 p hp
        simp only [decide_eq_true_eq, this]
        intro hcontra
        exact hk0 (by rw [← hcontra]; exact List.mem_map_of_mem Prod.fst hp)
      simp [mapGet, List.find?_cons, hx0, hrest]
    · have hx0v : ¬ (x0.value = v) := by rw [hx0]; exact fun h => hv h.symm
      have hkv : ¬ (k0 = v) := fun h => hv h.symm
      simp only [List.map_cons]
      rw [List.filter_cons_of_neg (by simpa using hx0v), ih hwf2 hnd2]
      simp [mapGet, List.find?_cons, hkv]

theorem dedupByValue_filter (l : List Opt) (v : JSVal) :
    (dedupByValue l).filter (fun o => decide (o.value = v))
      = ((l.filter fun o => decide (o.value = v)).getLast?).toList := by
  unfold dedupByValue
  rw [map_snd_filter_eq v (buildValueMap_wf (by intro p hp; simp at hp))
      (buildValueMap_keys_nodup (by simp)),
    mapGet_buildValueMap]
  simp [mapGet, Option.or_none]

theorem mem_dedupByValue {l : List Opt} {o : Opt} (h : o ∈ dedupByValue l) : o ∈ l := by
  unfold dedupByValue at h
  obtain ⟨q, hq, hqe⟩ := List.mem_map.mp h
  rcases mem_buildValueMap hq with h2 | h2
  · simp at h2
  · rw [← hqe]
    exact h2

/-! ### Coordinator lemmas -/

theorem resolveAPI_stale {cfg : Config} {st : CState} {p : Pending} {res : List Opt}
    (h : p.epoch ≠ st.requestCounter) : resolveAPI cfg st p res = st := by
  simp [resolveAPI, h]

theorem resolveAPI_counter (cfg : Config) (st : CState) (p : Pending) (res : List Opt) :
    (resolveAPI cfg st p res).requestCounter = st.requestCounter := by
  unfold resolveAPI
  split
  · split <;> rfl
  · rfl

theorem getOptionsFromAPI_counter (cfg : Config) (st : CState) (kw : String) :
    (getOptionsFromAPI cfg st kw).1.requestCounter = st.requestCounter + 1 := by
  unfold getOptionsFromAPI
  split <;> rfl

theorem getOptions_counter_ge (cfg : Config) (st : CState) (kw : String) :
    st.requestCounter ≤ (getOptions cfg st kw).1.requestCounter := by
  unfold getOptions filterOptionsLocally
  split
  · split
    · exact le_refl _
    · split
      · rw [getOptionsFromAPI_counter]
        omega
      · exact le_refl _
  · rw [getOptionsFromAPI_counter]
    omega

theorem stepEv_counter_ge (cfg : Config) (st : CState) (e : Event) :
    st.requestCounter ≤ (stepEv cfg st e).requestCounter := by
  cases e with
  | lookup kw => exact getOptions_counter_ge cfg st kw
  | settleOk p res =>
    simp only [stepEv]
    rw [resolveAPI_counter]
  | settleErr p => exact le_refl _

theorem run_counter_ge (cfg : Config) (st : CState) (evs : List Event) :
    st.requestCounter ≤ (run cfg st evs).requestCounter := by
  induction evs generalizing st with
  | nil => exact le_refl _
  | cons e rest ih =>
    exact le_trans (stepEv_counter_ge cfg st e) (ih (stepEv cfg st e))

theorem getOptions_options (cfg : Config) (st : CState) (kw : String) :
    (getOptions cfg st kw).1.options = st.options := by
  unfold getOptions filterOptionsLocally getOptionsFromAPI
  split
  · split
    · rfl
    · split
      · split <;> rfl
      · rfl
  · split <;> rfl

theorem getOptions_counter_remote (cfg : Config) (st : CState) (kw : String)
    (hB : st.options = []
      ∨ ((st.options.filter (matchPred cfg kw)) = [] ∧ guardAllows st.searchGuard kw = true)) :
    (getOptions cfg st kw).1.requestCounter = st.requestCounter + 1 := by
  unfold getOptions
  by_cases hopt : 0 < st.options.length
  · rw [if_pos hopt]
    have hne : st.options ≠ [] := by
      intro h
      rw [h] at hopt
      simp at hopt
    rcases hB with h | ⟨hf, hg⟩
    · exact absurd h hne
    · unfold filterOptionsLocally
      rw [hf]
      simp only [List.length_nil, lt_irrefl, if_false, if_pos hg]
      exact getOptionsFromAPI_counter cfg st kw
  · rw [if_neg hopt]
    exact getOptionsFromAPI_counter cfg st kw

/-! ### Well-labeled invariant machinery -/

/-- An event is well-labeled when any fetch response it carries consists of
options that all have a `label` (the spec's data model: an Option has at
least `value` and `label`). -/
def eventWL : Event → Bool
  | .settleOk _ res => res.all fun o => o.label.isSome
  | _ => true

theorem stepEv_preserves_sorted (cfg : Config) (st : CState) (e : Event)
    (hwl : ∀ o ∈ st.options, o.label.isSome = true)
    (hs : st.options.Pairwise fun a b => jsCompare a b ≤ 0)
    (he : eventWL e = true) :
    (∀ o ∈ (stepEv cfg st e).options, o.label.isSome = true)
      ∧ ((stepEv cfg st e).options.Pairwise fun a b => jsCompare a b ≤ 0) := by
  cases e with
  | lookup kw =>
    simp only [stepEv]
    rw [getOptions_options]
    exact ⟨hwl, hs⟩
  | settleErr p => exact ⟨hwl, hs⟩
  | settleOk p res =>
    simp only [stepEv]
    unfold resolveAPI
    split
    · split
      · have hres : ∀ o ∈ res, o.label.isSome = true := by
          intro o ho
          exact List.all_eq_true.mp (by simpa [eventWL] using he) o ho
        have hmem : ∀ o ∈ dedupByValue (st.options ++ res), o.label.isSome = true := by
          intro o ho
          rcases List.mem_append.mp (mem_dedupByValue ho) with h | h
          · exact hwl o h
          · exact hres o h
        refine ⟨?_, sortArray_sorted hmem⟩
        intro o ho
        exact hmem o ((sortArray_perm _).mem_iff.mp ho)
      · exact ⟨hwl, hs⟩
    · exact ⟨hwl, hs⟩

theorem run_preserves_sorted (cfg : Config) (evs : List Event) (st : CState)
    (hwl : ∀ o ∈ st.options, o.label.isSome = true)
    (hs : st.options.Pairwise fun a b => jsCompare a b ≤ 0)
    (hall : ∀ e ∈ evs, eventWL e = true) :
    (∀ o ∈ (run cfg st evs).options, o.label.isSome = true)
      ∧ ((run cfg st evs).options.Pairwise fun a b => jsCompare a b ≤ 0) := by
  induction evs generalizing st with
  | nil => exact ⟨hwl, hs⟩
  | cons e rest ih =>
    obtain ⟨h1, h2⟩ :=
      stepEv_preserves_sorted cfg st e hwl hs (hall e (List.mem_cons_self e rest))
    exact ih (stepEv cfg st e) h1 h2 fun e2 he2 => hall e2 (List.mem_cons_of_mem e he2)

/-! ### Local-hit helper -/

theorem getOptions_hit (cfg : Config) (st : CState) (kw : String)
    (h : st.options.filter (matchPred cfg kw) ≠ []) :
    getOptions cfg st kw =
      ({ st with
          filteredOptions := st.options.filter (matchPred cfg kw)
          isLoading := false
          searchGuard := SearchGuard.empty }, none) := by
  have hopt : st.options ≠ [] := by
    intro he
    apply h
    rw [he]
    rfl
  unfold getOptions
  rw [if_pos (List.length_pos.mpr hopt)]
  unfold filterOptionsLocally
  rw [if_pos (List.length_pos.mpr h)]

/-! ### Claim theorems -/

/-- C1 counterexample: with cached `options = [Apple]` (request counter 1),
lookup A with keyword `"zz"` misses locally and issues remote request
`⟨2, "zz"⟩`; lookup B with keyword `"ap"` is then issued and resolves
locally (no counter bump).  When A's response `[Fizz]` arrives it is NOT
discarded: it overwrites `filteredOptions` (and `options`), refuting the
claim for a lookup B that resolves locally. -/
theorem stale_discard_fails_for_local_lookup_cex :
    (getOptions ⟨true, false⟩
        ⟨[⟨JSVal.num 1, some "Apple", none⟩], [], false, SearchGuard.empty, 1⟩ "zz").2
      = some ⟨2, "zz"⟩
    ∧ (getOptions ⟨true, false⟩
        (getOptions ⟨true, false⟩
          ⟨[⟨JSVal.num 1, some "Apple", none⟩], [], false, SearchGuard.empty, 1⟩ "zz").1 "ap").2
      = none
    ∧ (resolveAPI ⟨true, false⟩
          (getOptions ⟨true, false⟩
            (getOptions ⟨true, false⟩
              ⟨[⟨JSVal.num 1, some "Apple", none⟩], [], false, SearchGuard.empty, 1⟩ "zz").1
            "ap").1
          ⟨2, "zz"⟩ [⟨JSVal.num 2, some "Fizz", none⟩]).filteredOptions
      ≠ ((getOptions ⟨true, false⟩
            (getOptions ⟨true, false⟩
              ⟨[⟨JSVal.num 1, some "Apple", none⟩], [], false, SearchGuard.empty, 1⟩ "zz").1
            "ap").1).filteredOptions := by
  refine ⟨by decide, by decide, by decide⟩

/-- C1 (amended): last-issued-wins holds for remote reissues.  If pending
request `p` was issued no later than the current request counter and a
lookup B with keyword `kwB` takes the remote path of `getOptions` (empty
cache, or no local match with the guard allowing — exactly the conditions
under which `getOptionsFromAPI` runs and increments the counter), then
after that lookup and any further events, resolving `p` leaves the state —
in particular `options`, `filteredOptions` and `isLoading` — unchanged.
The original claim additionally allowed B to resolve locally; that case is
refuted by `stale_discard_fails_for_local_lookup_cex`. -/
theorem stale_response_discarded_after_remote_reissue
    (cfg : Config) (st : CState) (p : Pending) (kwB : String)
    (evs : List Event) (res : List Opt)
    (hA : p.epoch ≤ st.requestCounter)
    (hB : st.options = []
      ∨ ((st.options.filter (matchPred cfg kwB)) = []
          ∧ guardAllows st.searchGuard kwB = true)) :
    resolveAPI cfg (run cfg (getOptions cfg st kwB).1 evs) p res
      = run cfg (getOptions cfg st kwB).1 evs := by
  apply resolveAPI_stale
  have h1 := getOptions_counter_remote cfg st kwB hB
  have h2 := run_counter_ge cfg (getOptions cfg st kwB).1 evs
  omega

/-- C1 witness: concrete instance of the amended stale-discard theorem. -/
theorem stale_response_discarded_after_remote_reissue_witness :
    resolveAPI ⟨true, false⟩ (run ⟨true, false⟩ (getOptions ⟨true, false⟩ initState "b").1 [])
        ⟨0, "a"⟩ [⟨JSVal.num 1, some "X", none⟩]
      = run ⟨true, false⟩ (getOptions ⟨true, false⟩ initState "b").1 [] :=
  stale_response_discarded_after_remote_reissue ⟨true, false⟩ initState ⟨0, "a"⟩ "b" []
    [⟨JSVal.num 1, some "X", none⟩] (by decide) (Or.inl rfl)

/-- C2 counterexample: guard armed with `K = "ab"`, `APIService` configured,
keyword `"ap"` does not start with `"ab"` — yet the lookup does not invoke
the fetch capability, because `"ap"` hits the cached option `Apple`
locally.  This refutes the claim's second half as universally stated. -/
theorem skip_guard_nonextension_local_hit_cex :
    jsStartsWith "ap" "ab" = false
    ∧ Config.hasAPIService ⟨true, false⟩ = true
    ∧ (getOptions ⟨true, false⟩
        ⟨[⟨JSVal.num 1, some "Apple", none⟩], [], false, ⟨some "ab", true⟩, 1⟩ "ap").2
      = none := by
  refine ⟨by decide, by decide, by decide⟩

/-- C2 (amended): with the guard armed as `{ prevKeyword := K, stop := true }`,
a lookup whose keyword starts with `K` never invokes the fetch capability;
a lookup whose keyword does not start with `K` invokes it provided
`APIService` is configured AND the keyword has no local match among the
cached options (a local hit suppresses the fetch regardless of the guard;
see `skip_guard_nonextension_local_hit_cex`). -/
theorem skip_guard_blocks_extensions_only
    (cfg : Config) (st : CState) (K kw : String)
    (hg : st.searchGuard = ⟨some K, true⟩) :
    (jsStartsWith kw K = true → (getOptions cfg st kw).2 = none)
    ∧ (cfg.hasAPIService = true → jsStartsWith kw K = false →
        st.options.filter (matchPred cfg kw) = []
        → ((getOptions cfg st kw).2).isSome = true) := by
  constructor
  · intro hs
    have hgf : guardAllows st.searchGuard kw = false := by
      rw [hg]
      simp [guardAllows, hs]
    unfold getOptions
    split
    · unfold filterOptionsLocally
      split
      · rfl
      · rw [if_neg (by simp [hgf])]
    · unfold getOptionsFromAPI
      rw [if_neg (by simp [hgf])]
  · intro hapi hs hf
    have hgt : guardAllows st.searchGuard kw = true := by
      rw [hg]
      simp [guardAllows, hs]
    unfold getOptions
    split
    · unfold filterOptionsLocally
      rw [hf, if_neg (by simp), if_pos hgt]
      unfold getOptionsFromAPI
      rw [if_pos (by simp [hapi, hgt])]
      rfl
    · unfold getOptionsFromAPI
      rw [if_pos (by simp [hapi, hgt])]
      rfl

/-- C2 witness: with the guard armed with `"ab"` and an empty cache,
`"abc"` is blocked and `"b"` reaches the fetch capability. -/
theorem skip_guard_blocks_extensions_only_witness :
    (getOptions ⟨true, false⟩ ⟨[], [], false, ⟨some "ab", true⟩, 0⟩ "abc").2 = none
    ∧ ((getOptions ⟨true, false⟩ ⟨[], [], false, ⟨some "ab", true⟩, 0⟩ "b").2).isSome = true :=
  ⟨(skip_guard_blocks_extensions_only ⟨true, false⟩
      ⟨[], [], false, ⟨some "ab", true⟩, 0⟩ "ab" "abc" rfl).1 (by decide),
   (skip_guard_blocks_extensions_only ⟨true, false⟩
      ⟨[], [], false, ⟨some "ab", true⟩, 0⟩ "ab" "b" rfl).2 rfl (by decide) rfl⟩

/-- C3 counterexample: `customDataName` configured; cached option `o1`
(custom field `"foo"`) plus non-empty response `[o2]` (custom field
`"fox"`) for keyword `"fo"`.  The code sets `filteredOptions = [o1, o2]`
(the filtered MERGED set); filtering the raw response `res` as the claim
states would give `[o2]`. -/
theorem filtered_options_not_from_raw_response_cex :
    (resolveAPI ⟨true, true⟩
          ⟨[⟨JSVal.num 1, some "A", some [JSVal.str "foo"]⟩], [], true, SearchGuard.empty, 5⟩
          ⟨5, "fo"⟩ [⟨JSVal.num 2, some "B", some [JSVal.str "fox"]⟩]).filteredOptions
        = [⟨JSVal.num 1, some "A", some [JSVal.str "foo"]⟩,
           ⟨JSVal.num 2, some "B", some [JSVal.str "fox"]⟩]
    ∧ ([⟨JSVal.num 2, some "B", some [JSVal.str "fox"]⟩].filter (matchPred ⟨true, true⟩ "fo"))
        = [⟨JSVal.num 2, some "B", some [JSVal.str "fox"]⟩]
    ∧ (resolveAPI ⟨true, true⟩
          ⟨[⟨JSVal.num 1, some "A", some [JSVal.str "foo"]⟩], [], true, SearchGuard.empty, 5⟩
          ⟨5, "fo"⟩ [⟨JSVal.num 2, some "B", some [JSVal.str "fox"]⟩]).filteredOptions
        ≠ ([⟨JSVal.num 2, some "B", some [JSVal.str "fox"]⟩].filter
            (matchPred ⟨true, true⟩ "fo")) := by
  refine ⟨by decide, by decide, by decide⟩

/-- C3 (amended): when a non-stale remote fetch returns a non-empty response
and `customDataName` is configured, `filteredOptions` is recomputed by
applying the local-filter predicate (with field selection
`ele[customDataName]`) with the request's keyword to the merged,
deduplicated, sorted option set — not to the raw response — and the guard
is cleared.  The raw-response reading of the original claim is refuted by
`filtered_options_not_from_raw_response_cex`. -/
theorem nonempty_response_filters_merged_set
    (cfg : Config) (st : CState) (p : Pending) (res : List Opt)
    (_hcd : cfg.customDataName = true)
    (he : p.epoch = st.requestCounter) (hr : res ≠ []) :
    (resolveAPI cfg st p res).filteredOptions
        = (sortArray (dedupByValue (st.options ++ res))).filter (matchPred cfg p.keyword)
      ∧ (resolveAPI cfg st p res).searchGuard = SearchGuard.empty := by
  unfold resolveAPI
  rw [if_pos he, if_pos (List.length_pos.mpr hr)]
  exact ⟨rfl, rfl⟩

/-- C3 witness: concrete instance of the amended merged-set filtering
theorem. -/
theorem nonempty_response_filters_merged_set_witness :
    (resolveAPI ⟨true, true⟩
          ⟨[⟨JSVal.num 1, some "A", some [JSVal.str "foo"]⟩], [], true, SearchGuard.empty, 5⟩
          ⟨5, "fo"⟩ [⟨JSVal.num 2, some "B", some [JSVal.str "fox"]⟩]).filteredOptions
        = (sortArray (dedupByValue
            ([⟨JSVal.num 1, some "A", some [JSVal.str "foo"]⟩]
              ++ [⟨JSVal.num 2, some "B", some [JSVal.str "fox"]⟩]))).filter
            (matchPred ⟨true, true⟩ "fo")
      ∧ (resolveAPI ⟨true, true⟩
          ⟨[⟨JSVal.num 1, some "A", some [JSVal.str "foo"]⟩], [], true, SearchGuard.empty, 5⟩
          ⟨5, "fo"⟩ [⟨JSVal.num 2, some "B", some [JSVal.str "fox"]⟩]).searchGuard
        = SearchGuard.empty :=
  nonempty_response_filters_merged_set ⟨true, true⟩
    ⟨[⟨JSVal.num 1, some "A", some [JSVal.str "foo"]⟩], [], true, SearchGuard.empty, 5⟩
    ⟨5, "fo"⟩ [⟨JSVal.num 2, some "B", some [JSVal.str "fox"]⟩] rfl rfl (by decide)

/-- C4: dedup invariant.  After a successful (non-stale, non-empty) merge,
for every key `v` the new `options` list contains exactly the entries of
the merged sequence `old ++ res` whose `value` is `v`, collapsed to one
entry — namely the LAST such entry of the merged sequence (later
occurrences overwrite earlier ones), as computed by the JS `Map`. -/
theorem dedup_by_value_last_wins
    (cfg : Config) (st : CState) (p : Pending) (res : List Opt) (v : JSVal)
    (he : p.epoch = st.requestCounter) (hr : res ≠ []) :
    (resolveAPI cfg st p res).options.filter (fun o => decide (o.value = v))
      = (((st.options ++ res).filter fun o => decide (o.value = v)).getLast?).toList := by
  unfold resolveAPI
  rw [if_pos he, if_pos (List.length_pos.mpr hr)]
  have hperm := (sortArray_perm (dedupByValue (st.options ++ res))).filter
      (fun o => decide (o.value = v))
  rw [dedupByValue_filter] at hperm
  show (sortArray (dedupByValue (st.options ++ res))).filter (fun o => decide (o.value = v)) = _
  cases hgl : ((st.options ++ res).filter fun o => decide (o.value = v)).getLast? with
  | none =>
    rw [hgl] at hperm
    simp only [Option.toList_none] at hperm ⊢
    exact hperm.eq_nil
  | some w =>
    rw [hgl] at hperm
    simp only [Option.toList_some] at hperm ⊢
    exact List.perm_singleton.mp hperm

/-- C4 witness: merging a response that reuses value `1` keeps exactly the
most recent entry for that value. -/
theorem dedup_by_value_last_wins_witness :
    (resolveAPI ⟨true, false⟩
        ⟨[⟨JSVal.num 1, some "Old", none⟩], [], true, SearchGuard.empty, 1⟩
        ⟨1, "o"⟩ [⟨JSVal.num 1, some "New", none⟩]).options.filter
          (fun o => decide (o.value = JSVal.num 1))
      = ((((
          [⟨JSVal.num 1, some "Old", none⟩] ++ [⟨JSVal.num 1, some "New", none⟩] : List Opt)).filter
          fun o => decide (o.value = JSVal.num 1)).getLast?).toList :=
  dedup_by_value_last_wins ⟨true, false⟩
    ⟨[⟨JSVal.num 1, some "Old", none⟩], [], true, SearchGuard.empty, 1⟩
    ⟨1, "o"⟩ [⟨JSVal.num 1, some "New", none⟩] (JSVal.num 1) rfl (by decide)

/-- C5: sort invariant.  Starting from the initial state, after any schedule
of lookups and settlements whose fetch responses consist of labelled
options (the spec's Option data model), the `options` list is pairwise
non-descending under the line-4 comparator. -/
theorem options_sorted_invariant (cfg : Config) (evs : List Event)
    (hall : ∀ e ∈ evs, eventWL e = true) :
    ((run cfg initState evs).options).Pairwise fun a b => jsCompare a b ≤ 0 :=
  (run_preserves_sorted cfg evs initState
    (by intro o ho; simp [initState] at ho)
    (by simp [initState]) hall).2

/-- C5 witness: a concrete schedule with an out-of-order response still
yields a sorted `options` list. -/
theorem options_sorted_invariant_witness :
    ((run ⟨true, false⟩ initState
        [Event.lookup "a",
         Event.settleOk ⟨1, "a"⟩
           [⟨JSVal.num 1, some "B", none⟩, ⟨JSVal.num 2, some "A", none⟩],
         Event.settleErr ⟨9, "z"⟩]).options).Pairwise
      (fun a b => jsCompare a b ≤ 0) :=
  options_sorted_invariant ⟨true, false⟩
    [Event.lookup "a",
     Event.settleOk ⟨1, "a"⟩
       [⟨JSVal.num 1, some "B", none⟩, ⟨JSVal.num 2, some "A", none⟩],
     Event.settleErr ⟨9, "z"⟩] (by decide)

/-- C6: local-hit property.  Whenever the keyword matches at least one
cached option (the filter by the line 66-69 predicate is non-empty),
`getOptions` publishes exactly the matching options as `filteredOptions`,
clears the loading flag, clears the guard, and does not invoke the fetch
capability (no pending request is produced). -/
theorem local_hit_filters_without_fetch (cfg : Config) (st : CState) (kw : String)
    (h : st.options.filter (matchPred cfg kw) ≠ []) :
    getOptions cfg st kw =
      ({ st with
          filteredOptions := st.options.filter (matchPred cfg kw)
          isLoading := false
          searchGuard := SearchGuard.empty }, none) :=
  getOptions_hit cfg st kw h

/-- C6 witness: the spec's example — options `Apple`/`Banana`, lookup
`"ap"` — yields `filteredOptions = [Apple]` with no fetch. -/
theorem local_hit_filters_without_fetch_witness :
    getOptions ⟨true, false⟩
        ⟨[⟨JSVal.num 1, some "Apple", none⟩, ⟨JSVal.num 2, some "Banana", none⟩],
          [], false, SearchGuard.empty, 0⟩ "ap"
      = (⟨[⟨JSVal.num 1, some "Apple", none⟩, ⟨JSVal.num 2, some "Banana", none⟩],
          [⟨JSVal.num 1, some "Apple", none⟩], false, SearchGuard.empty, 0⟩, none) := by
  rw [local_hit_filters_without_fetch ⟨true, false⟩
      ⟨[⟨JSVal.num 1, some "Apple", none⟩, ⟨JSVal.num 2, some "Banana", none⟩],
        [], false, SearchGuard.empty, 0⟩ "ap" (by decide)]
  decide

/-- C7: empty-result guard.  A non-stale remote response that is empty sets
`filteredOptions` to `[]`, arms the guard with the request's keyword
(`{ prevKeyword := keyword, stop := true }`), and clears the loading flag;
`options` and the counter are untouched. -/
theorem empty_response_arms_guard (cfg : Config) (st : CState) (p : Pending)
    (he : p.epoch = st.requestCounter) :
    resolveAPI cfg st p [] =
      { st with
          filteredOptions := []
          searchGuard := ⟨some p.keyword, true⟩
          isLoading := false } := by
  unfold resolveAPI
  rw [if_pos he, if_neg (by simp)]

/-- C7 witness: a fetch for `"xyz"` returning `[]` arms the guard with
`"xyz"`. -/
theorem empty_response_arms_guard_witness :
    resolveAPI ⟨true, false⟩ ⟨[], [], true, SearchGuard.empty, 1⟩ ⟨1, "xyz"⟩ []
      = ⟨[], [], false, ⟨some "xyz", true⟩, 1⟩ := by
  rw [empty_response_arms_guard ⟨true, false⟩ ⟨[], [], true, SearchGuard.empty, 1⟩ ⟨1, "xyz"⟩ rfl]

/-- C8 counterexample: an option without a label is NOT compared as the
empty string.  On the left it makes the comparator return 0 (where
empty-string treatment would give `strCompare "" "A" = -1`); on the right
it is compared as the string `"undefined"` (where empty-string treatment
would give `strCompare "A" "" = 1`). -/
theorem missing_label_not_empty_string_cex :
    jsCompare ⟨JSVal.num 1, none, none⟩ ⟨JSVal.num 2, some "A", none⟩ = 0
    ∧ strCompare "" "A" = -1
    ∧ jsCompare ⟨JSVal.num 1, none, none⟩ ⟨JSVal.num 2, some "A", none⟩ ≠ strCompare "" "A"
    ∧ jsCompare ⟨JSVal.num 2, some "A", none⟩ ⟨JSVal.num 1, none, none⟩ ≠ strCompare "A" "" := by
  refine ⟨by decide, by decide, by decide, by decide⟩

/-- C8 (amended): the sort comparison never crashes — it is a total function
on option pairs — but an absent label is not treated as the empty string:
when the left option lacks a label the comparator returns 0 (the JS sort
coerces the `undefined` comparator result to `+0`), and when the left label
is present the right-hand side is compared as `labelKey`, which coerces an
absent right label to the string `"undefined"`.  The empty-string reading
is refuted by `missing_label_not_empty_string_cex`. -/
theorem missing_label_comparator_total (a b : Opt) :
    (a.label = none → jsCompare a b = 0)
    ∧ (∀ la, a.label = some la → b.label = none
        → jsCompare a b = strCompare la "undefined") := by
  constructor
  · intro h
    simp [jsCompare, h]
  · intro la h hb
    simp [jsCompare, h, hb, labelKey]

/-- C8 witness: both orientations of a missing label at concrete options. -/
theorem missing_label_comparator_total_witness :
    jsCompare ⟨JSVal.num 1, none, none⟩ ⟨JSVal.num 2, some "A", none⟩ = 0
    ∧ jsCompare ⟨JSVal.num 2, some "A", none⟩ ⟨JSVal.num 1, none, none⟩
        = strCompare "A" "undefined" :=
  ⟨(missing_label_comparator_total ⟨JSVal.num 1, none, none⟩
      ⟨JSVal.num 2, some "A", none⟩).1 rfl,
   (missing_label_comparator_total ⟨JSVal.num 2, some "A", none⟩
      ⟨JSVal.num 1, none, none⟩).2 "A" rfl rfl⟩

/-- C9: fetch rejection.  If a remote request was actually issued (the start
phase produced a pending request), a rejected fetch propagates as an error
(`settleAPI` returns `Except.error`, there is no catch handler), and the
coordinator state is left exactly as it was at suspension time: in
particular the loading flag is still `true` (set by the start phase) and
the guard is unchanged from before the call. -/
theorem fetch_rejection_state_untouched (cfg : Config) (st : CState) (kw : String)
    (st2 : CState) (p : Pending)
    (h : getOptionsFromAPI cfg st kw = (st2, some p)) :
    settleAPI cfg st2 p (Except.error ()) = Except.error ()
    ∧ stepEv cfg st2 (Event.settleErr p) = st2
    ∧ st2.isLoading = true
    ∧ st2.searchGuard = st.searchGuard := by
  have h2 : st2 = { st with isLoading := true, requestCounter := st.requestCounter + 1 } := by
    unfold getOptionsFromAPI at h
    split at h
    · have := congrArg Prod.fst h
      simpa using this.symm
    · simp at h
  refine ⟨rfl, rfl, ?_, ?_⟩
  · rw [h2]
  · rw [h2]

/-- C9 witness: a concrete issued request whose fetch rejects. -/
theorem fetch_rejection_state_untouched_witness :
    settleAPI ⟨true, false⟩ ⟨[], [], true, SearchGuard.empty, 1⟩ ⟨1, "a"⟩ (Except.error ())
        = Except.error ()
    ∧ stepEv ⟨true, false⟩ ⟨[], [], true, SearchGuard.empty, 1⟩ (Event.settleErr ⟨1, "a"⟩)
        = ⟨[], [], true, SearchGuard.empty, 1⟩
    ∧ (⟨[], [], true, SearchGuard.empty, 1⟩ : CState).isLoading = true
    ∧ (⟨[], [], true, SearchGuard.empty, 1⟩ : CState).searchGuard = initState.searchGuard :=
  fetch_rejection_state_untouched ⟨true, false⟩ initState "a"
    ⟨[], [], true, SearchGuard.empty, 1⟩ ⟨1, "a"⟩ (by decide)

/-- C10: implicit empty-keyword behaviour.  With a non-empty cached option
set, a lookup with the empty keyword matches every cached option
(`hasKeyword` returns a truthy value for an empty keyword), so
`filteredOptions` becomes the whole `options` list, the loading flag and
the guard are cleared, and no fetch is issued — for any configuration,
including a configured `customDataName`. -/
theorem empty_keyword_matches_all_locally (cfg : Config) (st : CState)
    (h : st.options ≠ []) :
    getOptions cfg st "" =
      ({ st with
          filteredOptions := st.options
          isLoading := false
          searchGuard := SearchGuard.empty }, none) := by
  have hfull : st.options.filter (matchPred cfg "") = st.options :=
    List.filter_eq_self.mpr fun o ho => by simp [matchPred, hasKeyword]
  have hres := getOptions_hit cfg st "" (by rw [hfull]; exact h)
  rw [hfull] at hres
  exact hres

/-- C10 witness: empty keyword with a configured `customDataName`, an armed
guard and the loading flag set — the lookup publishes the whole cache,
clears both flags and issues no fetch. -/
theorem empty_keyword_matches_all_locally_witness :
    getOptions ⟨true, true⟩
        ⟨[⟨JSVal.num 1, some "Apple", none⟩, ⟨JSVal.num 2, some "Banana", none⟩],
          [], true, ⟨some "q", true⟩, 3⟩ ""
      = (⟨[⟨JSVal.num 1, some "Apple", none⟩, ⟨JSVal.num 2, some "Banana", none⟩],
          [⟨JSVal.num 1, some "Apple", none⟩, ⟨JSVal.num 2, some "Banana", none⟩],
          false, SearchGuard.empty, 3⟩, none) := by
  rw [empty_keyword_matches_all_locally ⟨true, true⟩
      ⟨[⟨JSVal.num 1, some "Apple", none⟩, ⟨JSVal.num 2, some "Banana", none⟩],
        [], true, ⟨some "q", true⟩, 3⟩ (by decide)]
